import Mathlib

/-
Verification development for the request admission/serialization queue
(`lib/requestQueue.ts`) of the content-generation studio, together with the
per-feature queue construction sites (ImageGenerator, StorybookBuilder,
VideoGenerator).

The queue runs in a single-threaded cooperative event loop, so its behaviour
is deterministic once we fix (a) the submitted tasks with the outcome each
task's operation produces when awaited, and (b) the points at which further
submissions arrive while the driver loop is suspended at an await.  The
embedding below interprets the driver loop (`processNext`, source lines
85-122) as a function from an initial backlog plus an arrival schedule to the
full trace of events: observer notifications (with the exact snapshot
published), job starts, promise settlements, and cool-down waits
(`waitWithCountdown`, source lines 124-151).  Observer registration and the
exception behaviour of `notify` (source lines 64-70 and 80-83) are modelled
separately with listeners that may throw.
-/

set_option linter.unusedVariables false
set_option maxRecDepth 4096

/-- Snapshot of the queue published to observers (source lines 1-5 and 72-78). -/
structure QueueSnapshot where
  activeTaskId : Option Nat
  queuedIds : List Nat
  delayRemainingMs : Option Nat
deriving DecidableEq

/-- Outcome produced when the queue awaits a task operation (source line 102):
the promise resolves with a value or rejects with an error. -/
inductive RunOutcome (α ε : Type) where
  | ok (v : α)
  | thrown (e : ε)
deriving DecidableEq

/-- A queued task (source lines 7-14).  `id` models the `crypto.randomUUID()`
token, `run` the behaviour of the caller-supplied operation; description and
enqueue timestamp are carried but never used by the scheduling logic, exactly
as in the source. -/
structure QueueTask (α ε : Type) where
  id : Nat
  run : RunOutcome α ε
  description : Option String
  enqueuedAt : Nat
deriving DecidableEq

/-- Events observable during a run of the driver loop.  `snap` records one
`notify` broadcast with the exact snapshot published; `started` and
`finished` bracket the execution window of a job (source lines 94 and 107);
`resolvedWith` and `rejectedWith` record the settlement of the job promise
(source lines 103 and 105); `cooldownEntered` records entry into
`waitWithCountdown` (source line 112). -/
inductive QueueEvent (α ε : Type) where
  | enqueued (id : Nat)
  | snap (s : QueueSnapshot)
  | started (id : Nat)
  | resolvedWith (id : Nat) (v : α)
  | rejectedWith (id : Nat) (e : ε)
  | finished (id : Nat)
  | cooldownEntered (ms : Nat)
deriving DecidableEq

namespace RequestQueue

/-- Remaining-time values notified by successive 500ms interval ticks of
`waitWithCountdown` (source lines 132-140): the tick at elapsed time
`elapsed + 500` recomputes the remaining time from the elapsed wall-clock
time as `ms - (elapsed + 500)`; the interval is live until the remaining
time reaches zero or the final timeout at `ms` clears it, so ticks fire
exactly while `elapsed + 500 ≤ ms`.  `fuel` only bounds the recursion; any
fuel at least `ms` is enough because each tick advances `elapsed` by 500. -/
def tickRemsAux (ms : Nat) : Nat → Nat → List Nat
  | 0, _ => []
  | fuel + 1, elapsed =>
      if elapsed + 500 ≤ ms then
        (ms - (elapsed + 500)) :: tickRemsAux ms fuel (elapsed + 500)
      else []

/-- All remaining-time values ticked out during a cool-down wait of `ms`
milliseconds, in order. -/
def tickRems (ms : Nat) : List Nat :=
  tickRemsAux ms ms 0

/-- Whether `waitWithCountdown` starts the recurring 500ms interval
(source line 142: `if (ms >= 1000)`). -/
def intervalStarted (ms : Nat) : Bool :=
  decide (1000 ≤ ms)

/-- Notifications emitted by `clearCountdown` (source lines 153-166): when the
remaining-time state is non-null it is reset to null and observers are
notified once; otherwise nothing is published. -/
def clearCountdownEvents (rem : Option Nat) (queued : List Nat) :
    List (QueueEvent α ε) :=
  match rem with
  | none => []
  | some _ => [QueueEvent.snap ⟨none, queued, none⟩]

/-- Notifications emitted by one `enqueue` call per arriving task (source
lines 41-62): the task is appended to the end of the backlog and observers
are notified; `active` and `rem` are the active-slot and remaining-time state
at the moment of arrival. -/
def enqueueEvents (active : Option Nat) (queued : List Nat) (rem : Option Nat) :
    List (QueueTask α ε) → List (QueueEvent α ε)
  | [] => []
  | t :: ts =>
      QueueEvent.enqueued t.id ::
        QueueEvent.snap ⟨active, queued ++ [t.id], rem⟩ ::
          enqueueEvents active (queued ++ [t.id]) rem ts

/-- Trace of one `waitWithCountdown ms` call (source lines 124-151) with the
backlog ids `queued` pending and tasks `b` arriving during the wait: the
remaining-time state is set to the full `ms` and notified, arrivals are
appended and notified, the recurring tick (started only when `ms ≥ 1000`)
renotifies the recomputed remaining time every 500ms, and the single timeout
at the full duration runs `clearCountdown`, which resets the state to null
and notifies. -/
def waitWithCountdown (ms : Nat) (queued : List Nat)
    (b : List (QueueTask α ε)) : List (QueueEvent α ε) :=
  QueueEvent.snap ⟨none, queued, some ms⟩ ::
    (enqueueEvents none queued (some ms) b ++
      ((if intervalStarted ms then tickRems ms else []).map fun r =>
        QueueEvent.snap ⟨none, queued ++ b.map (fun t => t.id), some r⟩) ++
      clearCountdownEvents (some ms) (queued ++ b.map (fun t => t.id)))

/-- Settlement of one job promise (source lines 101-105): the result of the
operation is forwarded unmodified, success to `resolve`, error to `reject`. -/
def settleEvent (t : QueueTask α ε) : QueueEvent α ε :=
  match t.run with
  | RunOutcome.ok v => QueueEvent.resolvedWith t.id v
  | RunOutcome.thrown e => QueueEvent.rejectedWith t.id e

/-- One iteration of the driver while-loop (source lines 93-114) on head task
`t`, remaining backlog `ts`, with tasks `b` arriving while the loop is
suspended awaiting the operation: dequeue the oldest entry and notify, await
the run (arrivals append and notify meanwhile), settle the promise, clear the
active slot and notify, then — only when the backlog is non-empty at that
moment and the configured delay is positive (source line 111) — enter the
cool-down wait. -/
def iterBlock (delayMs : Nat) (t : QueueTask α ε) (ts b : List (QueueTask α ε)) :
    List (QueueEvent α ε) :=
  QueueEvent.started t.id ::
    QueueEvent.snap ⟨some t.id, ts.map (fun x => x.id), none⟩ ::
      (enqueueEvents (some t.id) (ts.map (fun x => x.id)) none b ++
        settleEvent t ::
          QueueEvent.finished t.id ::
            QueueEvent.snap ⟨none, (ts ++ b).map (fun x => x.id), none⟩ ::
              (if 0 < (ts ++ b).length ∧ 0 < delayMs then
                QueueEvent.cooldownEntered delayMs ::
                  waitWithCountdown delayMs ((ts ++ b).map (fun x => x.id)) []
              else []))

/-- Driver loop with no further arrivals: processes the backlog to
completion, one job at a time, oldest first (source lines 93-114). -/
def drain (delayMs : Nat) : List (QueueTask α ε) → List (QueueEvent α ε)
  | [] => []
  | t :: ts => iterBlock delayMs t ts [] ++ drain delayMs ts

/-- Full trace of the driver given an initial backlog `tasks` and an arrival
schedule `sched`: the head batch of `sched` arrives while the loop is
suspended at the current await point and is appended to the backlog; a batch
arriving while the queue is idle is enqueued (each arrival notifying) and the
first arrival retriggers the loop (source line 59), which then starts its
first job with no preceding cool-down. -/
def runQueue (delayMs : Nat) :
    List (List (QueueTask α ε)) → List (QueueTask α ε) → List (QueueEvent α ε)
  | [], tasks => drain delayMs tasks
  | b :: rest, [] => enqueueEvents none [] none b ++ runQueue delayMs rest b
  | b :: rest, t :: ts => iterBlock delayMs t ts b ++ runQueue delayMs rest (ts ++ b)

/-- Mutable state of a `RequestQueue` instance (source lines 27-39). -/
structure State (α ε : Type) where
  delayMs : Nat
  tasks : List (QueueTask α ε)
  activeTask : Option (QueueTask α ε)
  delayRemainingMs : Option Nat
  processing : Bool

/-- Constructor (source lines 37-39): a negative or non-finite configured
delay is clamped to zero. -/
def new (delayMs : Int) : State α ε :=
  ⟨(max 0 delayMs).toNat, [], none, none, false⟩

/-- Backlog effect of `enqueue` (source line 57): the new task is pushed to
the end of the task array. -/
def enqueue (st : State α ε) (t : QueueTask α ε) : State α ε :=
  ⟨st.delayMs, st.tasks ++ [t], st.activeTask, st.delayRemainingMs, st.processing⟩

/-- Pure snapshot read (source lines 72-78). -/
def snapshot (st : State α ε) : QueueSnapshot :=
  ⟨st.activeTask.map (fun t => t.id), st.tasks.map (fun t => t.id),
    st.delayRemainingMs⟩

/-- Entry of `processNext` (source lines 85-91): if the in-progress flag is
set the call is a no-op; otherwise the driver loop runs. -/
def processNext (st : State α ε) (sched : List (List (QueueTask α ε))) :
    List (QueueEvent α ε) :=
  if st.processing then [] else runQueue st.delayMs sched st.tasks

end RequestQueue

/-- An observer callback as registered in the listener set: `throws = some e`
models a callback that raises `e` whenever it is invoked, `throws = none` a
callback that returns normally.  `id` models the function object identity
used by the `Set`. -/
structure Listener (ε : Type) where
  id : Nat
  throws : Option ε
deriving DecidableEq

namespace RequestQueue

/-- Adding a listener to the `Set` (source line 65): insertion order is kept
and an already-present member is not duplicated. -/
def addListener (ls : List (Listener ε)) (l : Listener ε) : List (Listener ε) :=
  if ls.any (fun x => x.id == l.id) then ls else ls ++ [l]

/-- The `subscribe` operation (source lines 64-70): the listener is added and
immediately invoked exactly once with the current snapshot; returns the new
listener set and the deliveries made. -/
def subscribe (ls : List (Listener ε)) (l : Listener ε) (s : QueueSnapshot) :
    List (Listener ε) × List (Nat × QueueSnapshot) :=
  (addListener ls l, [(l.id, s)])

/-- The deregistration function returned by `subscribe` (source lines 67-69):
deletes the listener from the set. -/
def unsubscribe (ls : List (Listener ε)) (i : Nat) : List (Listener ε) :=
  ls.filter (fun x => x.id != i)

/-- The `notify` broadcast (source lines 80-83): `listeners.forEach` invokes
each listener in insertion order with the snapshot, with no exception
handling, so the first listener that throws aborts the iteration and its
error propagates to the caller of `notify`.  Returns the deliveries actually
made and the propagated error, if any. -/
def notify (ls : List (Listener ε)) (s : QueueSnapshot) :
    List (Nat × QueueSnapshot) × Option ε :=
  match ls with
  | [] => ([], none)
  | l :: rest =>
      match l.throws with
      | some e => ([(l.id, s)], some e)
      | none =>
          let r := notify rest s
          ((l.id, s) :: r.1, r.2)

/-- Result of running the driver loop when observer callbacks may throw. -/
structure LoopResult (α ε : Type) where
  deliveries : List (Nat × QueueSnapshot)
  settledEvents : List (QueueEvent α ε)
  errorOut : Option ε
  leftover : List (QueueTask α ε)
  stuckActive : Option Nat
deriving DecidableEq

/-- Driver loop (source lines 93-114) with an explicit listener set and no
exception handling around `notify`: the notify after dequeuing (line 95) and
the notify in the `finally` after settling (line 108) run the listeners in
order.  A throw from the first notify escapes before the job is run, leaving
the active slot occupied (the `finally` at line 115 only resets the
in-progress flag); a throw from the second escapes after settlement.  Either
way the loop stops, the remaining backlog is left unprocessed, and the error
propagates out of `processNext`. -/
def processLoop (ls : List (Listener ε)) :
    List (QueueTask α ε) → LoopResult α ε
  | [] => ⟨[], [], none, [], none⟩
  | t :: ts =>
      let n1 := notify ls ⟨some t.id, ts.map (fun x => x.id), none⟩
      match n1.2 with
      | some e => ⟨n1.1, [], some e, ts, some t.id⟩
      | none =>
          let n2 := notify ls ⟨none, ts.map (fun x => x.id), none⟩
          match n2.2 with
          | some e => ⟨n1.1 ++ n2.1, [settleEvent t], some e, ts, none⟩
          | none =>
              let r := processLoop ls ts
              ⟨n1.1 ++ n2.1 ++ r.deliveries, settleEvent t :: r.settledEvents,
                r.errorOut, r.leftover, r.stuckActive⟩

end RequestQueue

/-- The three rate-limited features of the application. -/
inductive Feature where
  | image
  | video
  | storybook
deriving DecidableEq

/-- Whether the feature component constructs its own `RequestQueue` instance:
ImageGenerator builds `new RequestQueue(imageQueueDelay)` and StorybookBuilder
builds `new RequestQueue(storyQueueDelay)`, while VideoGenerator constructs no
queue at all — it runs its segments in a plain sequential for-loop with
`setTimeout` polling and reads no queue-delay configuration. -/
def constructsRequestQueue : Feature → Bool
  | Feature.image => true
  | Feature.video => false
  | Feature.storybook => true

/-- Delay resolution used by the queue-constructing components: the raw
configured value (none models an unset or non-finite value) is accepted when
it is a finite number at least zero, and otherwise falls back to 5000. -/
def resolveQueueDelay (raw : Option Int) : Nat :=
  match raw with
  | some v => if 0 ≤ v then v.toNat else 5000
  | none => 5000

section Extractors

variable {α ε : Type}

/-- Ids of `started` events, in order. -/
def startedIds (tr : List (QueueEvent α ε)) : List Nat :=
  tr.filterMap fun e =>
    match e with
    | QueueEvent.started i => some i
    | _ => none

/-- Execution-window markers: `(true, i)` opens the window of job `i`,
`(false, i)` closes it. -/
def windowMarks (tr : List (QueueEvent α ε)) : List (Bool × Nat) :=
  tr.filterMap fun e =>
    match e with
    | QueueEvent.started i => some (true, i)
    | QueueEvent.finished i => some (false, i)
    | _ => none

/-- The settlement events of the trace, in order. -/
def settleEvents (tr : List (QueueEvent α ε)) : List (QueueEvent α ε) :=
  tr.filterMap fun e =>
    match e with
    | QueueEvent.resolvedWith i v => some (QueueEvent.resolvedWith i v)
    | QueueEvent.rejectedWith i er => some (QueueEvent.rejectedWith i er)
    | _ => none

/-- The id a settlement event settles, if the event is a settlement. -/
def settleIdOf (e : QueueEvent α ε) : Option Nat :=
  match e with
  | QueueEvent.resolvedWith i _ => some i
  | QueueEvent.rejectedWith i _ => some i
  | _ => none

/-- All settlement events of job `i`, in order. -/
def settlesFor (i : Nat) (tr : List (QueueEvent α ε)) : List (QueueEvent α ε) :=
  tr.filter fun e => settleIdOf e == some i

/-- Durations of the cool-down waits entered, in order. -/
def cooldownsOf (tr : List (QueueEvent α ε)) : List Nat :=
  tr.filterMap fun e =>
    match e with
    | QueueEvent.cooldownEntered ms => some ms
    | _ => none

/-- The snapshots published, in order. -/
def snapsOf (tr : List (QueueEvent α ε)) : List QueueSnapshot :=
  tr.filterMap fun e =>
    match e with
    | QueueEvent.snap s => some s
    | _ => none

/-- Whether an event is a cool-down entry. -/
def isCooldownEv (e : QueueEvent α ε) : Bool :=
  match e with
  | QueueEvent.cooldownEntered _ => true
  | _ => false

/-- Whether an event is a job completion. -/
def isFinishedEv (e : QueueEvent α ε) : Bool :=
  match e with
  | QueueEvent.finished _ => true
  | _ => false

/-- Every cool-down entry in the trace is preceded by some job completion;
`seen` carries whether a completion has already occurred. -/
def cooldownAfterFinish (seen : Bool) : List (QueueEvent α ε) → Prop
  | [] => True
  | e :: r =>
      (isCooldownEv e = true → seen = true) ∧
        cooldownAfterFinish (seen || isFinishedEv e) r

/-- Every cool-down entry in the trace is followed by some job start. -/
def cooldownBeforeStart : List (QueueEvent α ε) → Prop
  | [] => True
  | e :: r =>
      (isCooldownEv e = true → ∃ i, QueueEvent.started (α := α) (ε := ε) i ∈ r) ∧
        cooldownBeforeStart r

/-- The published-snapshot invariant of claim C10 for a configured delay. -/
def snapOk (delayMs : Nat) (s : QueueSnapshot) : Prop :=
  (s.delayRemainingMs = none ∨
      ∃ r, s.delayRemainingMs = some r ∧ r ≤ delayMs) ∧
    (s.activeTaskId ≠ none → s.delayRemainingMs = none)

/-- The last snapshot published in a trace, if any. -/
def lastSnap (tr : List (QueueEvent α ε)) : Option QueueSnapshot :=
  (snapsOf tr).getLast?

end Extractors

section TraceLemmas

variable {α ε : Type}

theorem enqueueEvents_filterMap_nil {β : Type} (f : QueueEvent α ε → Option β)
    (h1 : ∀ i, f (QueueEvent.enqueued i) = none)
    (h2 : ∀ s, f (QueueEvent.snap s) = none) :
    ∀ (batch : List (QueueTask α ε)) (active : Option Nat) (queued : List Nat)
      (rem : Option Nat),
      (RequestQueue.enqueueEvents active queued rem batch).filterMap f = [] := by
  intro batch
  induction batch with
  | nil => intro active queued rem; simp [RequestQueue.enqueueEvents]
  | cons t ts ih =>
      intro active queued rem
      simp [RequestQueue.enqueueEvents, h1, h2, ih]

theorem waitWithCountdown_filterMap_nil {β : Type} (f : QueueEvent α ε → Option β)
    (h1 : ∀ i, f (QueueEvent.enqueued i) = none)
    (h2 : ∀ s, f (QueueEvent.snap s) = none)
    (ms : Nat) (queued : List Nat) (b : List (QueueTask α ε)) :
    (RequestQueue.waitWithCountdown ms queued b).filterMap f = [] := by
  unfold RequestQueue.waitWithCountdown RequestQueue.clearCountdownEvents
  simp [List.filterMap_append, List.filterMap_map, h2, Function.comp,
    enqueueEvents_filterMap_nil f h1 h2,
    List.filterMap_eq_nil]

end TraceLemmas

section StartedLemmas

variable {α ε : Type}

theorem startedIds_append (a b : List (QueueEvent α ε)) :
    startedIds (a ++ b) = startedIds a ++ startedIds b := by
  unfold startedIds; exact List.filterMap_append a b _

theorem startedIds_enqueueEvents (active : Option Nat) (queued : List Nat)
    (rem : Option Nat) (batch : List (QueueTask α ε)) :
    startedIds (RequestQueue.enqueueEvents active queued rem batch) = [] :=
  enqueueEvents_filterMap_nil _ (fun _ => rfl) (fun _ => rfl) batch active queued rem

theorem startedIds_waitWithCountdown (ms : Nat) (queued : List Nat)
    (b : List (QueueTask α ε)) :
    startedIds (RequestQueue.waitWithCountdown ms queued b) = [] :=
  waitWithCountdown_filterMap_nil _ (fun _ => rfl) (fun _ => rfl) ms queued b

theorem mem_enqueueEvents_shape (active : Option Nat) (queued : List Nat)
    (rem : Option Nat) (batch : List (QueueTask α ε)) (e : QueueEvent α ε)
    (he : e ∈ RequestQueue.enqueueEvents active queued rem batch) :
    (∃ i, e = QueueEvent.enqueued i) ∨ (∃ s, e = QueueEvent.snap s) := by
  induction batch generalizing queued with
  | nil => simp [RequestQueue.enqueueEvents] at he
  | cons t ts ih =>
      simp only [RequestQueue.enqueueEvents, List.mem_cons] at he
      rcases he with rfl | rfl | he
      · exact Or.inl ⟨t.id, rfl⟩
      · exact Or.inr ⟨_, rfl⟩
      · exact ih _ he

theorem mem_waitWithCountdown_shape (ms : Nat) (queued : List Nat)
    (b : List (QueueTask α ε)) (e : QueueEvent α ε)
    (he : e ∈ RequestQueue.waitWithCountdown ms queued b) :
    (∃ i, e = QueueEvent.enqueued i) ∨ (∃ s, e = QueueEvent.snap s) := by
  unfold RequestQueue.waitWithCountdown RequestQueue.clearCountdownEvents at he
  simp only [List.mem_cons, List.mem_append, List.mem_map] at he
  rcases he with rfl | (he | ⟨r, _, rfl⟩) | he
  · exact Or.inr ⟨_, rfl⟩
  · exact mem_enqueueEvents_shape none queued (some ms) b e he
  · exact Or.inr ⟨_, rfl⟩
  · rcases he with rfl | he
    · exact Or.inr ⟨_, rfl⟩
    · simp at he

theorem startedIds_iterBlock (delayMs : Nat) (t : QueueTask α ε)
    (ts b : List (QueueTask α ε)) :
    startedIds (RequestQueue.iterBlock delayMs t ts b) = [t.id] := by
  unfold RequestQueue.iterBlock
  cases ht : t.run <;>
    by_cases hc : 0 < (ts ++ b).length ∧ 0 < delayMs <;>
      simp [startedIds, List.filterMap_append, RequestQueue.settleEvent, ht, hc,
        List.filterMap_eq_nil_iff] <;>
      constructor <;>
      · intro a ha
        first
        | (rcases mem_enqueueEvents_shape _ _ _ _ a ha with ⟨i, rfl⟩ | ⟨s, rfl⟩ <;> rfl)
        | (intro h1 h2
           rcases h2 with rfl | h2
           · rfl
           · rcases mem_waitWithCountdown_shape _ _ _ a h2 with ⟨i, rfl⟩ | ⟨s, rfl⟩ <;> rfl)
        | (intro h1
           rcases h1 with rfl | h1
           · rfl
           · rcases mem_waitWithCountdown_shape _ _ _ a h1 with ⟨i, rfl⟩ | ⟨s, rfl⟩ <;> rfl)

theorem startedIds_drain (delayMs : Nat) (tasks : List (QueueTask α ε)) :
    startedIds (RequestQueue.drain delayMs tasks) = tasks.map (fun t => t.id) := by
  induction tasks with
  | nil => rfl
  | cons t ts ih =>
      rw [RequestQueue.drain, startedIds_append, startedIds_iterBlock, ih]
      rfl

theorem startedIds_runQueue (delayMs : Nat) (sched : List (List (QueueTask α ε)))
    (tasks : List (QueueTask α ε)) :
    startedIds (RequestQueue.runQueue delayMs sched tasks) =
      (tasks ++ sched.flatten).map (fun t => t.id) := by
  induction sched generalizing tasks with
  | nil => simp [RequestQueue.runQueue, startedIds_drain]
  | cons b rest ih =>
      cases tasks with
      | nil =>
          rw [RequestQueue.runQueue, startedIds_append, startedIds_enqueueEvents, ih]
          simp
      | cons t ts =>
          rw [RequestQueue.runQueue, startedIds_append, startedIds_iterBlock, ih]
          simp

end StartedLemmas

section BlockLemmas

variable {α ε : Type}

theorem filterMap_cons_toList {β : Type} (f : QueueEvent α ε → Option β)
    (a : QueueEvent α ε) (l : List (QueueEvent α ε)) :
    List.filterMap f (a :: l) = (f a).toList ++ List.filterMap f l := by
  cases h : f a <;> simp [List.filterMap_cons, h]

theorem iterBlock_filterMap {β : Type} (f : QueueEvent α ε → Option β)
    (h1 : ∀ i, f (QueueEvent.enqueued i) = none)
    (h2 : ∀ s, f (QueueEvent.snap s) = none)
    (delayMs : Nat) (t : QueueTask α ε) (ts b : List (QueueTask α ε)) :
    (RequestQueue.iterBlock delayMs t ts b).filterMap f =
      (f (QueueEvent.started t.id)).toList ++
        (f (RequestQueue.settleEvent t)).toList ++
          (f (QueueEvent.finished t.id)).toList ++
            (if 0 < (ts ++ b).length ∧ 0 < delayMs then
              (f (QueueEvent.cooldownEntered delayMs)).toList
            else []) := by
  unfold RequestQueue.iterBlock
  rw [filterMap_cons_toList, filterMap_cons_toList, List.filterMap_append,
    enqueueEvents_filterMap_nil f h1 h2, filterMap_cons_toList,
    filterMap_cons_toList, filterMap_cons_toList]
  by_cases hc : 0 < (ts ++ b).length ∧ 0 < delayMs
  · rw [if_pos hc, if_pos hc, filterMap_cons_toList,
      waitWithCountdown_filterMap_nil f h1 h2]
    simp [h2]
  · rw [if_neg hc, if_neg hc]
    simp [h2]

theorem windowMarks_append (a b : List (QueueEvent α ε)) :
    windowMarks (a ++ b) = windowMarks a ++ windowMarks b := by
  unfold windowMarks; exact List.filterMap_append a b _

theorem windowMarks_iterBlock (delayMs : Nat) (t : QueueTask α ε)
    (ts b : List (QueueTask α ε)) :
    windowMarks (RequestQueue.iterBlock delayMs t ts b) =
      [(true, t.id), (false, t.id)] := by
  unfold windowMarks
  rw [iterBlock_filterMap _ (fun _ => rfl) (fun _ => rfl)]
  cases ht : t.run <;> simp [RequestQueue.settleEvent, ht]

theorem windowMarks_enqueueEvents (active : Option Nat) (queued : List Nat)
    (rem : Option Nat) (batch : List (QueueTask α ε)) :
    windowMarks (RequestQueue.enqueueEvents active queued rem batch) = [] :=
  enqueueEvents_filterMap_nil _ (fun _ => rfl) (fun _ => rfl) batch active queued rem

theorem windowMarks_drain (delayMs : Nat) (tasks : List (QueueTask α ε)) :
    windowMarks (RequestQueue.drain delayMs tasks) =
      tasks.flatMap (fun t => [(true, t.id), (false, t.id)]) := by
  induction tasks with
  | nil => rfl
  | cons t ts ih =>
      rw [RequestQueue.drain, windowMarks_append, windowMarks_iterBlock, ih]
      rfl

theorem windowMarks_runQueue (delayMs : Nat) (sched : List (List (QueueTask α ε)))
    (tasks : List (QueueTask α ε)) :
    windowMarks (RequestQueue.runQueue delayMs sched tasks) =
      (tasks ++ sched.flatten).flatMap (fun t => [(true, t.id), (false, t.id)]) := by
  induction sched generalizing tasks with
  | nil => simp [RequestQueue.runQueue, windowMarks_drain]
  | cons b rest ih =>
      cases tasks with
      | nil =>
          rw [RequestQueue.runQueue, windowMarks_append, windowMarks_enqueueEvents, ih]
          simp
      | cons t ts =>
          rw [RequestQueue.runQueue, windowMarks_append, windowMarks_iterBlock, ih]
          simp

theorem settleEvents_append (a b : List (QueueEvent α ε)) :
    settleEvents (a ++ b) = settleEvents a ++ settleEvents b := by
  unfold settleEvents; exact List.filterMap_append a b _

theorem settleEvents_iterBlock (delayMs : Nat) (t : QueueTask α ε)
    (ts b : List (QueueTask α ε)) :
    settleEvents (RequestQueue.iterBlock delayMs t ts b) =
      [RequestQueue.settleEvent t] := by
  unfold settleEvents
  rw [iterBlock_filterMap _ (fun _ => rfl) (fun _ => rfl)]
  cases ht : t.run <;> simp [RequestQueue.settleEvent, ht]

theorem settleEvents_enqueueEvents (active : Option Nat) (queued : List Nat)
    (rem : Option Nat) (batch : List (QueueTask α ε)) :
    settleEvents (RequestQueue.enqueueEvents active queued rem batch) = [] :=
  enqueueEvents_filterMap_nil _ (fun _ => rfl) (fun _ => rfl) batch active queued rem

theorem settleEvents_drain (delayMs : Nat) (tasks : List (QueueTask α ε)) :
    settleEvents (RequestQueue.drain delayMs tasks) =
      tasks.map RequestQueue.settleEvent := by
  induction tasks with
  | nil => rfl
  | cons t ts ih =>
      rw [RequestQueue.drain, settleEvents_append, settleEvents_iterBlock, ih]
      rfl

theorem settleEvents_runQueue (delayMs : Nat) (sched : List (List (QueueTask α ε)))
    (tasks : List (QueueTask α ε)) :
    settleEvents (RequestQueue.runQueue delayMs sched tasks) =
      (tasks ++ sched.flatten).map RequestQueue.settleEvent := by
  induction sched generalizing tasks with
  | nil => simp [RequestQueue.runQueue, settleEvents_drain]
  | cons b rest ih =>
      cases tasks with
      | nil =>
          rw [RequestQueue.runQueue, settleEvents_append, settleEvents_enqueueEvents, ih]
          simp
      | cons t ts =>
          rw [RequestQueue.runQueue, settleEvents_append, settleEvents_iterBlock, ih]
          simp

theorem cooldownsOf_append (a b : List (QueueEvent α ε)) :
    cooldownsOf (a ++ b) = cooldownsOf a ++ cooldownsOf b := by
  unfold cooldownsOf; exact List.filterMap_append a b _

theorem cooldownsOf_iterBlock (delayMs : Nat) (t : QueueTask α ε)
    (ts b : List (QueueTask α ε)) :
    cooldownsOf (RequestQueue.iterBlock delayMs t ts b) =
      if 0 < (ts ++ b).length ∧ 0 < delayMs then [delayMs] else [] := by
  unfold cooldownsOf
  rw [iterBlock_filterMap _ (fun _ => rfl) (fun _ => rfl)]
  cases ht : t.run <;> by_cases hc : 0 < (ts ++ b).length ∧ 0 < delayMs <;>
    simp [RequestQueue.settleEvent, ht, hc]

theorem cooldownsOf_enqueueEvents (active : Option Nat) (queued : List Nat)
    (rem : Option Nat) (batch : List (QueueTask α ε)) :
    cooldownsOf (RequestQueue.enqueueEvents active queued rem batch) = [] :=
  enqueueEvents_filterMap_nil _ (fun _ => rfl) (fun _ => rfl) batch active queued rem

theorem cooldownsOf_drain_length (delayMs : Nat) (tasks : List (QueueTask α ε)) :
    (cooldownsOf (RequestQueue.drain delayMs tasks)).length =
      if 0 < delayMs then tasks.length - 1 else 0 := by
  induction tasks with
  | nil => simp [RequestQueue.drain, cooldownsOf]
  | cons t ts ih =>
      rw [RequestQueue.drain, cooldownsOf_append, cooldownsOf_iterBlock]
      cases ts with
      | nil => simp [RequestQueue.drain, cooldownsOf]
      | cons u us =>
          by_cases hd : 0 < delayMs
          · simp only [List.length_append, ih, if_pos hd]
            simp [hd]
            omega
          · simp only [List.length_append, ih, if_neg hd]
            simp [hd]

theorem cooldownsOf_runQueue_delay_zero (sched : List (List (QueueTask α ε)))
    (tasks : List (QueueTask α ε)) :
    cooldownsOf (RequestQueue.runQueue 0 sched tasks) = [] := by
  induction sched generalizing tasks with
  | nil =>
      induction tasks with
      | nil => rfl
      | cons t ts ih =>
          simp only [RequestQueue.runQueue] at ih ⊢
          rw [RequestQueue.drain, cooldownsOf_append, cooldownsOf_iterBlock]
          simp [ih]
  | cons b rest ih =>
      cases tasks with
      | nil =>
          rw [RequestQueue.runQueue, cooldownsOf_append, cooldownsOf_enqueueEvents, ih]
          simp
      | cons t ts =>
          rw [RequestQueue.runQueue, cooldownsOf_append, cooldownsOf_iterBlock, ih]
          simp

end BlockLemmas

section CooldownPosition

variable {α ε : Type}

theorem cooldownAfterFinish_true (tr : List (QueueEvent α ε)) :
    cooldownAfterFinish true tr := by
  induction tr with
  | nil => trivial
  | cons e r ih => exact ⟨fun _ => rfl, by simpa using ih⟩

theorem cooldownAfterFinish_append (a b : List (QueueEvent α ε)) (s : Bool)
    (ha : cooldownAfterFinish s a)
    (hb : cooldownAfterFinish (s || a.any isFinishedEv) b) :
    cooldownAfterFinish s (a ++ b) := by
  induction a generalizing s with
  | nil => simpa using hb
  | cons e a ih =>
      refine ⟨ha.1, ih (s || isFinishedEv e) ha.2 ?_⟩
      have : (s || isFinishedEv e || a.any isFinishedEv) =
          (s || (e :: a).any isFinishedEv) := by
        simp [List.any_cons, Bool.or_assoc]
      rw [this]
      exact hb

theorem cooldownAfterFinish_of_no_cooldown (tr : List (QueueEvent α ε))
    (h : ∀ e ∈ tr, isCooldownEv e = false) (s : Bool) :
    cooldownAfterFinish s tr := by
  induction tr generalizing s with
  | nil => trivial
  | cons e r ih =>
      refine ⟨fun hc => ?_, ih (fun x hx => h x (List.mem_cons_of_mem e hx)) _⟩
      rw [h e (List.mem_cons_self e r)] at hc
      exact absurd hc (by simp)

theorem enqueueEvents_no_cooldown (active : Option Nat) (queued : List Nat)
    (rem : Option Nat) (batch : List (QueueTask α ε)) :
    ∀ e ∈ RequestQueue.enqueueEvents active queued rem batch,
      isCooldownEv e = false := by
  intro e he
  rcases mem_enqueueEvents_shape active queued rem batch e he with ⟨i, rfl⟩ | ⟨s, rfl⟩ <;>
    rfl

theorem waitWithCountdown_no_cooldown (ms : Nat) (queued : List Nat)
    (b : List (QueueTask α ε)) :
    ∀ e ∈ RequestQueue.waitWithCountdown ms queued b, isCooldownEv e = false := by
  intro e he
  rcases mem_waitWithCountdown_shape ms queued b e he with ⟨i, rfl⟩ | ⟨s, rfl⟩ <;> rfl

theorem enqueueEvents_no_finished (active : Option Nat) (queued : List Nat)
    (rem : Option Nat) (batch : List (QueueTask α ε)) :
    (RequestQueue.enqueueEvents active queued rem batch).any isFinishedEv = false := by
  rw [List.any_eq_false]
  intro e he
  rcases mem_enqueueEvents_shape active queued rem batch e he with ⟨i, rfl⟩ | ⟨s, rfl⟩ <;>
    simp [isFinishedEv]

theorem cooldownAfterFinish_iterBlock (delayMs : Nat) (t : QueueTask α ε)
    (ts b : List (QueueTask α ε)) (s : Bool) :
    cooldownAfterFinish s (RequestQueue.iterBlock delayMs t ts b) := by
  unfold RequestQueue.iterBlock
  refine ⟨fun h => absurd h (by simp [isCooldownEv]), ?_⟩
  refine ⟨fun h => absurd h (by simp [isCooldownEv]), ?_⟩
  refine cooldownAfterFinish_append _ _ _
    (cooldownAfterFinish_of_no_cooldown _
      (enqueueEvents_no_cooldown _ _ _ _) _) ?_
  refine ⟨fun h => ?_, ?_⟩
  · cases ht : t.run <;> simp [RequestQueue.settleEvent, ht, isCooldownEv] at h
  · refine ⟨fun h => absurd h (by simp [isCooldownEv]), ?_⟩
    have hfin : isFinishedEv (QueueEvent.finished (α := α) (ε := ε) t.id) = true := rfl
    rw [hfin, Bool.or_true]
    exact cooldownAfterFinish_true _

end CooldownPosition

section CooldownPosition2

variable {α ε : Type}

theorem finished_mem_iterBlock (delayMs : Nat) (t : QueueTask α ε)
    (ts b : List (QueueTask α ε)) :
    QueueEvent.finished (α := α) (ε := ε) t.id ∈
      RequestQueue.iterBlock delayMs t ts b := by
  unfold RequestQueue.iterBlock
  simp

theorem iterBlock_any_finished (delayMs : Nat) (t : QueueTask α ε)
    (ts b : List (QueueTask α ε)) :
    (RequestQueue.iterBlock delayMs t ts b).any isFinishedEv = true :=
  List.any_eq_true.mpr ⟨_, finished_mem_iterBlock delayMs t ts b, rfl⟩

theorem cooldownAfterFinish_drain (delayMs : Nat) (tasks : List (QueueTask α ε))
    (s : Bool) : cooldownAfterFinish s (RequestQueue.drain delayMs tasks) := by
  induction tasks generalizing s with
  | nil => trivial
  | cons t ts ih =>
      rw [RequestQueue.drain]
      refine cooldownAfterFinish_append _ _ _
        (cooldownAfterFinish_iterBlock delayMs t ts [] s) ?_
      rw [iterBlock_any_finished, Bool.or_true]
      exact cooldownAfterFinish_true _

theorem cooldownAfterFinish_runQueue (delayMs : Nat)
    (sched : List (List (QueueTask α ε))) (tasks : List (QueueTask α ε))
    (s : Bool) :
    cooldownAfterFinish s (RequestQueue.runQueue delayMs sched tasks) := by
  induction sched generalizing tasks s with
  | nil => exact cooldownAfterFinish_drain delayMs tasks s
  | cons b rest ih =>
      cases tasks with
      | nil =>
          rw [RequestQueue.runQueue]
          refine cooldownAfterFinish_append _ _ _
            (cooldownAfterFinish_of_no_cooldown _
              (enqueueEvents_no_cooldown _ _ _ _) _) ?_
          exact ih b _
      | cons t ts =>
          rw [RequestQueue.runQueue]
          refine cooldownAfterFinish_append _ _ _
            (cooldownAfterFinish_iterBlock delayMs t ts b s) ?_
          rw [iterBlock_any_finished, Bool.or_true]
          exact ih (ts ++ b) true

theorem cooldownBeforeStart_append (a b : List (QueueEvent α ε))
    (hb : cooldownBeforeStart b)
    (ha : ∀ e ∈ a, isCooldownEv e = true →
      ∃ i, QueueEvent.started (α := α) (ε := ε) i ∈ b) :
    cooldownBeforeStart (a ++ b) := by
  induction a with
  | nil => simpa using hb
  | cons e a ih =>
      refine ⟨fun hc => ?_, ih (fun x hx h => ha x (List.mem_cons_of_mem e hx) h)⟩
      obtain ⟨i, hi⟩ := ha e (List.mem_cons_self e a) hc
      exact ⟨i, List.mem_append_right a hi⟩

theorem cooldownBeforeStart_of_no_cooldown (tr : List (QueueEvent α ε))
    (h : ∀ e ∈ tr, isCooldownEv e = false) : cooldownBeforeStart tr := by
  induction tr with
  | nil => trivial
  | cons e r ih =>
      refine ⟨fun hc => ?_, ih fun x hx => h x (List.mem_cons_of_mem e hx)⟩
      rw [h e (List.mem_cons_self e r)] at hc
      exact absurd hc (by simp)

theorem started_mem_drain (delayMs : Nat) (t : QueueTask α ε)
    (ts : List (QueueTask α ε)) :
    QueueEvent.started (α := α) (ε := ε) t.id ∈
      RequestQueue.drain delayMs (t :: ts) := by
  rw [RequestQueue.drain]
  exact List.mem_append_left _ (by unfold RequestQueue.iterBlock; simp)

theorem started_mem_runQueue (delayMs : Nat) (sched : List (List (QueueTask α ε)))
    (t : QueueTask α ε) (ts : List (QueueTask α ε)) :
    QueueEvent.started (α := α) (ε := ε) t.id ∈
      RequestQueue.runQueue delayMs sched (t :: ts) := by
  cases sched with
  | nil => exact started_mem_drain delayMs t ts
  | cons b rest =>
      rw [RequestQueue.runQueue]
      exact List.mem_append_left _ (by unfold RequestQueue.iterBlock; simp)

theorem mem_iterBlock_cooldown (delayMs : Nat) (t : QueueTask α ε)
    (ts b : List (QueueTask α ε)) (e : QueueEvent α ε)
    (he : e ∈ RequestQueue.iterBlock delayMs t ts b)
    (hc : isCooldownEv e = true) :
    0 < (ts ++ b).length ∧ 0 < delayMs := by
  by_cases hcond : 0 < (ts ++ b).length ∧ 0 < delayMs
  · exact hcond
  · exfalso
    unfold RequestQueue.iterBlock at he
    rw [if_neg hcond] at he
    simp only [List.mem_cons, List.mem_append] at he
    rcases he with rfl | rfl | (he | he)
    · exact absurd hc (by simp [isCooldownEv])
    · exact absurd hc (by simp [isCooldownEv])
    · rw [enqueueEvents_no_cooldown _ _ _ _ e he] at hc
      exact absurd hc (by simp)
    · rcases he with rfl | rfl | rfl | he
      · cases ht : t.run <;>
          simp [RequestQueue.settleEvent, ht, isCooldownEv] at hc
      · exact absurd hc (by simp [isCooldownEv])
      · exact absurd hc (by simp [isCooldownEv])
      · simp at he

theorem cooldownBeforeStart_drain (delayMs : Nat)
    (tasks : List (QueueTask α ε)) :
    cooldownBeforeStart (RequestQueue.drain delayMs tasks) := by
  induction tasks with
  | nil => trivial
  | cons t ts ih =>
      rw [RequestQueue.drain]
      refine cooldownBeforeStart_append _ _ ih ?_
      intro e he hc
      obtain ⟨hlen, _⟩ := mem_iterBlock_cooldown delayMs t ts [] e he hc
      cases ts with
      | nil => simp at hlen
      | cons u us => exact ⟨u.id, started_mem_drain delayMs u us⟩

theorem cooldownBeforeStart_runQueue (delayMs : Nat)
    (sched : List (List (QueueTask α ε))) (tasks : List (QueueTask α ε)) :
    cooldownBeforeStart (RequestQueue.runQueue delayMs sched tasks) := by
  induction sched generalizing tasks with
  | nil => exact cooldownBeforeStart_drain delayMs tasks
  | cons b rest ih =>
      cases tasks with
      | nil =>
          rw [RequestQueue.runQueue]
          refine cooldownBeforeStart_append _ _ (ih b) ?_
          intro e he hc
          rw [enqueueEvents_no_cooldown _ _ _ _ e he] at hc
          exact absurd hc (by simp)
      | cons t ts =>
          rw [RequestQueue.runQueue]
          refine cooldownBeforeStart_append _ _ (ih (ts ++ b)) ?_
          intro e he hc
          obtain ⟨hlen, _⟩ := mem_iterBlock_cooldown delayMs t ts b e he hc
          cases hab : ts ++ b with
          | nil => rw [hab] at hlen; simp at hlen
          | cons u us =>
              exact ⟨u.id, started_mem_runQueue delayMs rest u us⟩

end CooldownPosition2

section SnapshotLemmas

variable {α ε : Type}

theorem snapsOf_append (a b : List (QueueEvent α ε)) :
    snapsOf (a ++ b) = snapsOf a ++ snapsOf b := by
  unfold snapsOf; exact List.filterMap_append a b _

theorem mem_snapsOf (s : QueueSnapshot) (tr : List (QueueEvent α ε)) :
    s ∈ snapsOf tr ↔ QueueEvent.snap s ∈ tr := by
  unfold snapsOf
  rw [List.mem_filterMap]
  constructor
  · rintro ⟨e, he, hfe⟩
    cases e <;> simp at hfe
    subst hfe
    exact he
  · intro h
    exact ⟨QueueEvent.snap s, h, rfl⟩

theorem mem_enqueueEvents_snap (active : Option Nat) (queued : List Nat)
    (rem : Option Nat) (batch : List (QueueTask α ε)) (s : QueueSnapshot)
    (hs : QueueEvent.snap (α := α) (ε := ε) s ∈
      RequestQueue.enqueueEvents active queued rem batch) :
    s.activeTaskId = active ∧ s.delayRemainingMs = rem := by
  induction batch generalizing queued with
  | nil => simp [RequestQueue.enqueueEvents] at hs
  | cons t ts ih =>
      simp only [RequestQueue.enqueueEvents, List.mem_cons] at hs
      rcases hs with hs | hs | hs
  
      · exact absurd hs (by simp)
      · cases hs; exact ⟨rfl, rfl⟩
      · exact ih _ hs

theorem tickRemsAux_le (ms : Nat) (fuel elapsed : Nat) :
    ∀ r ∈ RequestQueue.tickRemsAux ms fuel elapsed, r ≤ ms := by
  induction fuel generalizing elapsed with
  | zero => intro r hr; simp [RequestQueue.tickRemsAux] at hr
  | succ fuel ih =>
      intro r hr
      rw [RequestQueue.tickRemsAux] at hr
      by_cases h : elapsed + 500 ≤ ms
      · rw [if_pos h] at hr
        rcases List.mem_cons.mp hr with rfl | hr
        · omega
        · exact ih _ r hr
      · rw [if_neg h] at hr; simp at hr

theorem mem_waitWithCountdown_snap (ms : Nat) (queued : List Nat)
    (b : List (QueueTask α ε)) (s : QueueSnapshot)
    (hs : QueueEvent.snap (α := α) (ε := ε) s ∈
      RequestQueue.waitWithCountdown ms queued b) :
    s.activeTaskId = none ∧
      (s.delayRemainingMs = none ∨
        ∃ r, s.delayRemainingMs = some r ∧ r ≤ ms) := by
  unfold RequestQueue.waitWithCountdown RequestQueue.clearCountdownEvents at hs
  simp only [List.mem_cons, List.mem_append, List.mem_map] at hs
  rcases hs with hs | (hs | ⟨r, hr, hs⟩) | hs
  · cases hs
    exact ⟨rfl, Or.inr ⟨ms, rfl, le_refl ms⟩⟩
  · have h := mem_enqueueEvents_snap none queued (some ms) b s hs
    exact ⟨h.1, Or.inr ⟨ms, h.2, le_refl ms⟩⟩
  · cases hs
    refine ⟨rfl, Or.inr ⟨r, rfl, ?_⟩⟩
    by_cases hiv : RequestQueue.intervalStarted ms
    · rw [if_pos hiv] at hr
      exact tickRemsAux_le ms ms 0 r hr
    · rw [if_neg hiv] at hr
      simp at hr
  · rcases hs with hs | hs
    · cases hs
      exact ⟨rfl, Or.inl rfl⟩
    · simp at hs

theorem settleEvent_ne_snap (t : QueueTask α ε) (s : QueueSnapshot) :
    QueueEvent.snap s ≠ RequestQueue.settleEvent t := by
  cases ht : t.run <;> simp [RequestQueue.settleEvent, ht]

theorem mem_iterBlock_snap (delayMs : Nat) (t : QueueTask α ε)
    (ts b : List (QueueTask α ε)) (s : QueueSnapshot)
    (hs : QueueEvent.snap (α := α) (ε := ε) s ∈
      RequestQueue.iterBlock delayMs t ts b) :
    snapOk delayMs s := by
  unfold RequestQueue.iterBlock at hs
  simp only [List.mem_cons, List.mem_append] at hs
  rcases hs with hs | hs | (hs | hs)
  · exact absurd hs (by simp)
  · cases hs
    exact ⟨Or.inl rfl, fun _ => rfl⟩
  · have h := mem_enqueueEvents_snap (some t.id) (ts.map fun x => x.id) none b s hs
    exact ⟨Or.inl h.2, fun _ => h.2⟩
  · rcases hs with hs | hs | hs | hs
    · exact absurd hs (settleEvent_ne_snap t s)
    · exact absurd hs (by simp)
    · cases hs
      exact ⟨Or.inl rfl, fun _ => rfl⟩
    · by_cases hc : 0 < (ts ++ b).length ∧ 0 < delayMs
      · rw [if_pos hc] at hs
        rcases List.mem_cons.mp hs with hs | hs
        · exact absurd hs (by simp)
        · have h := mem_waitWithCountdown_snap delayMs
            ((ts ++ b).map fun x => x.id) [] s hs
          refine ⟨h.2, fun ha => absurd h.1 ?_⟩
          intro h1
          rw [h1] at ha
          exact ha rfl
      · rw [if_neg hc] at hs
        simp at hs

theorem mem_drain_snap (delayMs : Nat) (tasks : List (QueueTask α ε))
    (s : QueueSnapshot)
    (hs : QueueEvent.snap (α := α) (ε := ε) s ∈ RequestQueue.drain delayMs tasks) :
    snapOk delayMs s := by
  induction tasks with
  | nil => simp [RequestQueue.drain] at hs
  | cons t ts ih =>
      rw [RequestQueue.drain] at hs
      rcases List.mem_append.mp hs with hs | hs
      · exact mem_iterBlock_snap delayMs t ts [] s hs
      · exact ih hs

theorem mem_runQueue_snap (delayMs : Nat) (sched : List (List (QueueTask α ε)))
    (tasks : List (QueueTask α ε)) (s : QueueSnapshot)
    (hs : QueueEvent.snap (α := α) (ε := ε) s ∈
      RequestQueue.runQueue delayMs sched tasks) :
    snapOk delayMs s := by
  induction sched generalizing tasks with
  | nil => exact mem_drain_snap delayMs tasks s hs
  | cons b rest ih =>
      cases tasks with
      | nil =>
          rw [RequestQueue.runQueue] at hs
          rcases List.mem_append.mp hs with hs | hs
          · have h := mem_enqueueEvents_snap none [] none b s hs
            exact ⟨Or.inl h.2, fun _ => h.2⟩
          · exact ih b hs
      | cons t ts =>
          rw [RequestQueue.runQueue] at hs
          rcases List.mem_append.mp hs with hs | hs
          · exact mem_iterBlock_snap delayMs t ts b s hs
          · exact ih (ts ++ b) hs

end SnapshotLemmas

section LastSnapLemmas

variable {α ε : Type}

theorem runQueue_flatten_nil (delayMs : Nat) (sched : List (List (QueueTask α ε)))
    (hj : sched.flatten = []) :
    RequestQueue.runQueue (α := α) (ε := ε) delayMs sched [] = [] := by
  induction sched with
  | nil => rfl
  | cons b rest ih =>
      rw [List.flatten_cons] at hj
      obtain ⟨rfl, hj⟩ := List.append_eq_nil.mp hj
      rw [RequestQueue.runQueue, RequestQueue.enqueueEvents, List.nil_append]
      exact ih hj

theorem lastSnap_append_right (a b : List (QueueEvent α ε))
    (hb : snapsOf b ≠ []) : lastSnap (a ++ b) = lastSnap b := by
  unfold lastSnap
  rw [snapsOf_append]
  exact List.getLast?_append_of_ne_nil _ hb

theorem lastSnap_iterBlock_final (delayMs : Nat) (t : QueueTask α ε) :
    lastSnap (RequestQueue.iterBlock (α := α) (ε := ε) delayMs t [] []) =
      some ⟨none, [], none⟩ := by
  unfold RequestQueue.iterBlock
  cases ht : t.run <;>
    simp [lastSnap, snapsOf, RequestQueue.settleEvent, ht,
      RequestQueue.enqueueEvents, List.filterMap_cons]

theorem lastSnap_some_ne_nil (tr : List (QueueEvent α ε)) (x : QueueSnapshot)
    (h : lastSnap tr = some x) : snapsOf tr ≠ [] := by
  intro hnil
  unfold lastSnap at h
  rw [hnil] at h
  simp at h

theorem lastSnap_drain (delayMs : Nat) (t : QueueTask α ε)
    (ts : List (QueueTask α ε)) :
    lastSnap (RequestQueue.drain (α := α) (ε := ε) delayMs (t :: ts)) =
      some ⟨none, [], none⟩ := by
  induction ts generalizing t with
  | nil =>
      rw [RequestQueue.drain, RequestQueue.drain, List.append_nil]
      exact lastSnap_iterBlock_final delayMs t
  | cons u us ih =>
      rw [RequestQueue.drain]
      rw [lastSnap_append_right _ _ (lastSnap_some_ne_nil _ _ (ih u))]
      exact ih u

theorem lastSnap_runQueue (delayMs : Nat) (sched : List (List (QueueTask α ε)))
    (tasks : List (QueueTask α ε)) (h : tasks ≠ [] ∨ sched.flatten ≠ []) :
    lastSnap (RequestQueue.runQueue (α := α) (ε := ε) delayMs sched tasks) =
      some ⟨none, [], none⟩ := by
  induction sched generalizing tasks with
  | nil =>
      cases tasks with
      | nil =>
          rcases h with h | h
          · exact absurd rfl h
          · exact absurd rfl h
      | cons t ts => exact lastSnap_drain delayMs t ts
  | cons b rest ih =>
      cases tasks with
      | nil =>
          have hj : b ≠ [] ∨ rest.flatten ≠ [] := by
            rcases h with h | h
            · exact absurd rfl h
            · rw [List.flatten_cons] at h
              by_cases hb : b = []
              · subst hb
                rw [List.nil_append] at h
                exact Or.inr h
              · exact Or.inl hb
          rw [RequestQueue.runQueue]
          have hrec := ih b hj
          rw [lastSnap_append_right _ _ (lastSnap_some_ne_nil _ _ hrec)]
          exact hrec
      | cons t ts =>
          rw [RequestQueue.runQueue]
          by_cases hrecne : ts ++ b = [] ∧ rest.flatten = []
          · obtain ⟨hab, hj⟩ := hrecne
            rw [hab, runQueue_flatten_nil delayMs rest hj, List.append_nil]
            obtain ⟨rfl, rfl⟩ := List.append_eq_nil.mp hab
            exact lastSnap_iterBlock_final delayMs t
          · have hor : ts ++ b ≠ [] ∨ rest.flatten ≠ [] := by
              by_cases h1 : ts ++ b = []
              · exact Or.inr fun h2 => hrecne ⟨h1, h2⟩
              · exact Or.inl h1
            have hrec := ih (ts ++ b) hor
            rw [lastSnap_append_right _ _ (lastSnap_some_ne_nil _ _ hrec)]
            exact hrec

end LastSnapLemmas

section SettleLemmas

variable {α ε : Type}

theorem settleIdOf_settleEvent (t : QueueTask α ε) :
    settleIdOf (RequestQueue.settleEvent t) = some t.id := by
  cases ht : t.run <;> simp [RequestQueue.settleEvent, ht, settleIdOf]

theorem settlesFor_eq_filterMap (i : Nat) (tr : List (QueueEvent α ε)) :
    settlesFor i tr =
      tr.filterMap (fun e => if settleIdOf e == some i then some e else none) := by
  unfold settlesFor
  induction tr with
  | nil => rfl
  | cons a l ih =>
      rw [List.filter_cons, List.filterMap_cons]
      by_cases h : settleIdOf a == some i
      · rw [if_pos h, if_pos h]
        simp [ih]
      · rw [if_neg h, if_neg h]
        simp only [Bool.false_eq_true] at h
        simp [ih, h]

theorem settlesFor_append (i : Nat) (a b : List (QueueEvent α ε)) :
    settlesFor i (a ++ b) = settlesFor i a ++ settlesFor i b := by
  unfold settlesFor
  rw [List.filter_append]

theorem settlesFor_iterBlock (i : Nat) (delayMs : Nat) (t : QueueTask α ε)
    (ts b : List (QueueTask α ε)) :
    settlesFor i (RequestQueue.iterBlock delayMs t ts b) =
      if t.id == i then [RequestQueue.settleEvent t] else [] := by
  rw [settlesFor_eq_filterMap]
  rw [iterBlock_filterMap _ (fun _ => rfl) (fun _ => rfl)]
  have hst : settleIdOf (QueueEvent.started (α := α) (ε := ε) t.id) = none := rfl
  have hfi : settleIdOf (QueueEvent.finished (α := α) (ε := ε) t.id) = none := rfl
  have hcd : settleIdOf (QueueEvent.cooldownEntered (α := α) (ε := ε) delayMs) =
      none := rfl
  have hnb : ∀ j : Nat, ((none : Option Nat) == some j) = false := fun _ => rfl
  have hsb : ((some t.id : Option Nat) == some i) = (t.id == i) := rfl
  rw [hst, hfi, hcd, settleIdOf_settleEvent, hsb]
  by_cases hid : t.id == i
  · rw [hid]
    by_cases hc : 0 < (ts ++ b).length ∧ 0 < delayMs
    · rw [if_pos hc]
      simp
    · rw [if_neg hc]
      simp
  · rw [Bool.not_eq_true] at hid
    rw [hid]
    by_cases hc : 0 < (ts ++ b).length ∧ 0 < delayMs
    · rw [if_pos hc]
      simp
    · rw [if_neg hc]
      simp

theorem settlesFor_drain (i : Nat) (delayMs : Nat)
    (tasks : List (QueueTask α ε)) :
    settlesFor i (RequestQueue.drain delayMs tasks) =
      (tasks.filter (fun t => t.id == i)).map RequestQueue.settleEvent := by
  induction tasks with
  | nil => rfl
  | cons t ts ih =>
      rw [RequestQueue.drain, settlesFor_append, settlesFor_iterBlock, ih,
        List.filter_cons]
      by_cases h : t.id == i
      · rw [if_pos h, if_pos h]; rfl
      · rw [if_neg h, if_neg h]; rfl

theorem settlesFor_runQueue (i : Nat) (delayMs : Nat)
    (sched : List (List (QueueTask α ε))) (tasks : List (QueueTask α ε)) :
    settlesFor i (RequestQueue.runQueue delayMs sched tasks) =
      ((tasks ++ sched.flatten).filter (fun t => t.id == i)).map
        RequestQueue.settleEvent := by
  induction sched generalizing tasks with
  | nil => simp [RequestQueue.runQueue, settlesFor_drain]
  | cons b rest ih =>
      cases tasks with
      | nil =>
          rw [RequestQueue.runQueue, settlesFor_append, ih]
          have : settlesFor i (RequestQueue.enqueueEvents (α := α) (ε := ε)
              none [] none b) = [] := by
            rw [settlesFor_eq_filterMap]
            exact enqueueEvents_filterMap_nil _ (fun _ => rfl) (fun _ => rfl) b _ _ _
          rw [this, List.nil_append]
          simp
      | cons t ts =>
          rw [RequestQueue.runQueue, settlesFor_append, settlesFor_iterBlock, ih]
          simp only [List.flatten_cons, List.cons_append, List.filter_cons]
          by_cases h : t.id == i
          · rw [if_pos h, if_pos h]
            simp [List.filter_append]
          · rw [if_neg h, if_neg h]
            simp [List.filter_append]

theorem filter_id_of_nodup (l : List (QueueTask α ε)) (t : QueueTask α ε)
    (hm : t ∈ l) (hnd : (l.map (fun x => x.id)).Nodup) :
    l.filter (fun u => u.id == t.id) = [t] := by
  induction l with
  | nil => simp at hm
  | cons u us ih =>
      simp only [List.map_cons, List.nodup_cons, List.mem_map] at hnd
      rcases List.mem_cons.mp hm with rfl | hm
      · rw [List.filter_cons_of_pos (by simp)]
        have : us.filter (fun x => x.id == t.id) = [] := by
          rw [List.filter_eq_nil_iff]
          intro e he hex
          rw [beq_iff_eq] at hex
          exact hnd.1 ⟨e, he, hex⟩
        rw [this]
      · rw [List.filter_cons]
        have hux : (u.id == t.id) = false := by
          rw [beq_eq_false_iff_ne]
          intro huw
          exact hnd.1 ⟨t, hm, huw.symm⟩
        rw [hux]
        simp only [Bool.false_eq_true, if_false]
        exact ih hm hnd.2

end SettleLemmas

/-- The shape of an event: settlement events are collapsed to a marker that
keeps the job id but forgets whether the outcome was success or failure and
what value or error it carried; all other events are kept as they are. -/
inductive EventShape where
  | enqueued (id : Nat)
  | snap (s : QueueSnapshot)
  | started (id : Nat)
  | settled (id : Nat)
  | finished (id : Nat)
  | cooldownEntered (ms : Nat)
deriving DecidableEq

/-- Project an event to its shape. -/
def shapeOf {α ε : Type} : QueueEvent α ε → EventShape
  | QueueEvent.enqueued i => EventShape.enqueued i
  | QueueEvent.snap s => EventShape.snap s
  | QueueEvent.started i => EventShape.started i
  | QueueEvent.resolvedWith i _ => EventShape.settled i
  | QueueEvent.rejectedWith i _ => EventShape.settled i
  | QueueEvent.finished i => EventShape.finished i
  | QueueEvent.cooldownEntered ms => EventShape.cooldownEntered ms

section ShapeLemmas

variable {α ε : Type}

/-- Tasks related by sharing an id (their operations may behave differently). -/
def idEq (a b : QueueTask α ε) : Prop := a.id = b.id

theorem shapeOf_settleEvent (t : QueueTask α ε) :
    shapeOf (RequestQueue.settleEvent t) = EventShape.settled t.id := by
  cases ht : t.run <;> simp [RequestQueue.settleEvent, ht, shapeOf]

theorem forall2_idEq_map_id (l1 l2 : List (QueueTask α ε))
    (h : List.Forall₂ idEq l1 l2) :
    l1.map (fun x => x.id) = l2.map (fun x => x.id) := by
  induction h with
  | nil => rfl
  | cons hab hrest ih =>
      simp only [List.map_cons, ih, List.cons.injEq]
      exact ⟨hab, trivial⟩

theorem shape_enqueueEvents_congr (active : Option Nat) (rem : Option Nat)
    (b1 b2 : List (QueueTask α ε)) (h : List.Forall₂ idEq b1 b2) :
    ∀ queued,
      (RequestQueue.enqueueEvents active queued rem b1).map shapeOf =
        (RequestQueue.enqueueEvents active queued rem b2).map shapeOf := by
  induction h with
  | nil => intro queued; rfl
  | cons hab hrest ih =>
      intro queued
      simp only [RequestQueue.enqueueEvents, List.map_cons]
      rw [hab, ih]

theorem shape_iterBlock_congr (delayMs : Nat) (t1 t2 : QueueTask α ε)
    (ts1 ts2 b1 b2 : List (QueueTask α ε)) (ht : idEq t1 t2)
    (hts : List.Forall₂ idEq ts1 ts2) (hb : List.Forall₂ idEq b1 b2) :
    (RequestQueue.iterBlock delayMs t1 ts1 b1).map shapeOf =
      (RequestQueue.iterBlock delayMs t2 ts2 b2).map shapeOf := by
  have hid : t1.id = t2.id := ht
  have hts' : ts1.map (fun x => x.id) = ts2.map (fun x => x.id) :=
    forall2_idEq_map_id ts1 ts2 hts
  have hb' : b1.map (fun x => x.id) = b2.map (fun x => x.id) :=
    forall2_idEq_map_id b1 b2 hb
  have hlen : (ts1 ++ b1).length = (ts2 ++ b2).length := by
    have h1 := List.Forall₂.length_eq hts
    have h2 := List.Forall₂.length_eq hb
    simp [h1, h2]
  unfold RequestQueue.iterBlock
  simp only [List.map_cons, List.map_append]
  rw [hid, hts', hb', hlen, shape_enqueueEvents_congr _ _ b1 b2 hb,
    shapeOf_settleEvent, shapeOf_settleEvent, hid]

theorem shape_drain_congr (delayMs : Nat) (l1 l2 : List (QueueTask α ε))
    (h : List.Forall₂ idEq l1 l2) :
    (RequestQueue.drain delayMs l1).map shapeOf =
      (RequestQueue.drain delayMs l2).map shapeOf := by
  induction h with
  | nil => rfl
  | cons hab hrest ih =>
      rw [RequestQueue.drain, RequestQueue.drain, List.map_append,
        List.map_append, ih,
        shape_iterBlock_congr delayMs _ _ _ _ [] [] hab hrest List.Forall₂.nil]

theorem shape_runQueue_congr (delayMs : Nat)
    (sched1 sched2 : List (List (QueueTask α ε)))
    (tasks1 tasks2 : List (QueueTask α ε))
    (hs : List.Forall₂ (List.Forall₂ idEq) sched1 sched2)
    (ht : List.Forall₂ idEq tasks1 tasks2) :
    (RequestQueue.runQueue delayMs sched1 tasks1).map shapeOf =
      (RequestQueue.runQueue delayMs sched2 tasks2).map shapeOf := by
  induction hs generalizing tasks1 tasks2 with
  | nil => exact shape_drain_congr delayMs tasks1 tasks2 ht
  | cons hbb hrest ih =>
      cases ht with
      | nil =>
          simp only [RequestQueue.runQueue, List.map_append]
          rw [shape_enqueueEvents_congr _ _ _ _ hbb, ih _ _ hbb]
      | cons hab htt =>
          simp only [RequestQueue.runQueue, List.map_append]
          have happ := List.rel_append htt hbb
          rw [shape_iterBlock_congr delayMs _ _ _ _ _ _ hab htt hbb,
            ih _ _ happ]

end ShapeLemmas

section ListenerLemmas

variable {α ε : Type}

theorem notify_benign (ls : List (Listener ε)) (s : QueueSnapshot)
    (h : ∀ x ∈ ls, x.throws = none) :
    RequestQueue.notify ls s = (ls.map (fun l => (l.id, s)), none) := by
  induction ls with
  | nil => rfl
  | cons l rest ih =>
      have hl : l.throws = none := h l (List.mem_cons_self l rest)
      rw [RequestQueue.notify, hl]
      simp only [List.map_cons]
      rw [ih (fun x hx => h x (List.mem_cons_of_mem l hx))]

theorem notify_throw_split (ls1 : List (Listener ε)) (l : Listener ε)
    (ls2 : List (Listener ε)) (s : QueueSnapshot) (e : ε)
    (hl : l.throws = some e) (h1 : ∀ x ∈ ls1, x.throws = none) :
    RequestQueue.notify (ls1 ++ l :: ls2) s =
      (ls1.map (fun x => (x.id, s)) ++ [(l.id, s)], some e) := by
  induction ls1 with
  | nil =>
      rw [List.nil_append, RequestQueue.notify, hl]
      rfl
  | cons x rest ih =>
      have hx : x.throws = none := h1 x (List.mem_cons_self x rest)
      rw [List.cons_append, RequestQueue.notify, hx]
      rw [ih (fun y hy => h1 y (List.mem_cons_of_mem x hy))]
      rfl

theorem notify_avoids_absent (ls : List (Listener ε)) (i : Nat)
    (s : QueueSnapshot) (h : ∀ x ∈ ls, x.id ≠ i) :
    ∀ d ∈ (RequestQueue.notify ls s).1, d.1 ≠ i := by
  induction ls with
  | nil => intro d hd; simp [RequestQueue.notify] at hd
  | cons l rest ih =>
      intro d hd
      rw [RequestQueue.notify] at hd
      cases ht : l.throws with
      | some e =>
          rw [ht] at hd
          simp only [List.mem_singleton] at hd
          subst hd
          exact h l (List.mem_cons_self l rest)
      | none =>
          rw [ht] at hd
          simp only [List.mem_cons] at hd
          rcases hd with rfl | hd
          · exact h l (List.mem_cons_self l rest)
          · exact ih (fun y hy => h y (List.mem_cons_of_mem l hy)) d hd

theorem unsubscribe_no_member (ls : List (Listener ε)) (i : Nat) :
    ∀ x ∈ RequestQueue.unsubscribe ls i, x.id ≠ i := by
  intro x hx
  have := List.of_mem_filter hx
  simpa using this

theorem processLoop_benign (ls : List (Listener ε))
    (h : ∀ x ∈ ls, x.throws = none) (tasks : List (QueueTask α ε)) :
    (RequestQueue.processLoop ls tasks).errorOut = none ∧
      (RequestQueue.processLoop ls tasks).settledEvents =
        tasks.map RequestQueue.settleEvent ∧
      (RequestQueue.processLoop ls tasks).leftover = [] ∧
      (RequestQueue.processLoop ls tasks).stuckActive = none := by
  induction tasks with
  | nil => exact ⟨rfl, rfl, rfl, rfl⟩
  | cons t ts ih =>
      rw [RequestQueue.processLoop]
      rw [notify_benign ls _ h, notify_benign ls _ h]
      simp only
      exact ⟨ih.1, by simp [ih.2.1], ih.2.2.1, ih.2.2.2⟩

end ListenerLemmas

section TickCharacterization

theorem tickRemsAux_eq_range (ms : Nat) (fuel : Nat) :
    ∀ elapsed, ms ≤ elapsed + 500 * fuel →
      RequestQueue.tickRemsAux ms fuel elapsed =
        (List.range ((ms - elapsed) / 500)).map
          (fun k => ms - (elapsed + 500 * (k + 1))) := by
  induction fuel with
  | zero =>
      intro elapsed h
      have hd : (ms - elapsed) / 500 = 0 := by omega
      rw [RequestQueue.tickRemsAux, hd]
      rfl
  | succ fuel ih =>
      intro elapsed h
      rw [RequestQueue.tickRemsAux]
      by_cases hle : elapsed + 500 ≤ ms
      · rw [if_pos hle]
        rw [ih (elapsed + 500) (by omega)]
        have hd : (ms - elapsed) / 500 = (ms - (elapsed + 500)) / 500 + 1 := by
          omega
        rw [hd, List.range_succ_eq_map]
        rw [List.map_cons, List.map_map]
        have h0 : ms - (elapsed + 500 * (0 + 1)) = ms - (elapsed + 500) := by
          omega
        rw [h0]
        have hfun : ((fun k => ms - (elapsed + 500 * (k + 1))) ∘ Nat.succ) =
            (fun k => ms - (elapsed + 500 + 500 * (k + 1))) := by
          funext k
          simp only [Function.comp]
          omega
        rw [hfun]
      · rw [if_neg hle]
        have hd : (ms - elapsed) / 500 = 0 := by omega
        rw [hd]
        rfl

theorem tickRems_eq_range (ms : Nat) :
    RequestQueue.tickRems ms =
      (List.range (ms / 500)).map (fun k => ms - 500 * (k + 1)) := by
  unfold RequestQueue.tickRems
  rw [tickRemsAux_eq_range ms ms 0 (by omega)]
  simp

end TickCharacterization

section WaitLastSnap

variable {α ε : Type}

theorem getLast_cons_app_single (x c : QueueSnapshot)
    (A : List QueueSnapshot) :
    (x :: (A ++ [c])).getLast? = some c := by
  rw [show x :: (A ++ [c]) = (x :: A) ++ [c] by simp]
  exact List.getLast?_concat _

theorem lastSnap_waitWithCountdown (ms : Nat) (queued : List Nat)
    (b : List (QueueTask α ε)) :
    lastSnap (RequestQueue.waitWithCountdown (α := α) (ε := ε) ms queued b) =
      some ⟨none, queued ++ b.map (fun t => t.id), none⟩ := by
  unfold RequestQueue.waitWithCountdown RequestQueue.clearCountdownEvents lastSnap
  simp only [snapsOf, List.filterMap_cons, List.filterMap_append,
    List.filterMap_nil]
  exact getLast_cons_app_single _ _ _

end WaitLastSnap

/-- C1: for every queue instance and every sequence of submissions, at most
one job executes at any instant — the trace of execution-window markers is a
flat sequence of disjoint open/close pairs, one per job in start order, so no
two operations' execution windows overlap — and a second trigger of the
driver loop arriving while the loop is already iterating is a no-op thanks to
the single `processing` in-progress flag (source lines 86-88). -/
theorem claim1_single_active_job :
    ∀ (α ε : Type),
      (∀ (st : RequestQueue.State α ε) (sched : List (List (QueueTask α ε))),
        st.processing = true → RequestQueue.processNext st sched = []) ∧
      (∀ (delayMs : Nat) (sched : List (List (QueueTask α ε)))
          (tasks : List (QueueTask α ε)),
        windowMarks (RequestQueue.runQueue delayMs sched tasks) =
          (tasks ++ sched.flatten).flatMap
            (fun t => [(true, t.id), (false, t.id)])) := by
  intro α ε
  constructor
  · intro st sched h
    rw [RequestQueue.processNext, if_pos h]
  · intro delayMs sched tasks
    exact windowMarks_runQueue delayMs sched tasks

/-- Witness for C1 at a concrete state with the in-progress flag set. -/
theorem claim1_witness :
    RequestQueue.processNext (α := Nat) (ε := Nat)
      ⟨4000, [⟨1, RunOutcome.ok 5, none, 0⟩], none, none, true⟩
      [[⟨2, RunOutcome.ok 6, none, 0⟩]] = [] :=
  (claim1_single_active_job Nat Nat).1
    ⟨4000, [⟨1, RunOutcome.ok 5, none, 0⟩], none, none, true⟩
    [[⟨2, RunOutcome.ok 6, none, 0⟩]] rfl

/-- C2: enqueue appends to the end of the backlog (source line 57) and the
driver always dequeues the oldest entry, so for every initial backlog and
every arrival schedule the jobs start in exactly the order in which they were
submitted — strict FIFO, no overtaking. -/
theorem claim2_fifo_start_order :
    ∀ (α ε : Type),
      (∀ (st : RequestQueue.State α ε) (t : QueueTask α ε),
        (RequestQueue.enqueue st t).tasks = st.tasks ++ [t]) ∧
      (∀ (delayMs : Nat) (sched : List (List (QueueTask α ε)))
          (tasks : List (QueueTask α ε)),
        startedIds (RequestQueue.runQueue delayMs sched tasks) =
          (tasks ++ sched.flatten).map (fun t => t.id)) := by
  intro α ε
  exact ⟨fun st t => rfl, fun delayMs sched tasks =>
    startedIds_runQueue delayMs sched tasks⟩

/-- C9: of the three features, only image generation and storybook generation
construct a `RequestQueue`; the video generation component constructs none
(it runs its segments sequentially with bare `setTimeout` polling), although
the README documents `VITE_VIDEO_QUEUE_DELAY_MS` as an enforced delay. -/
theorem claim9_feature_queue_construction :
    constructsRequestQueue Feature.image = true ∧
    constructsRequestQueue Feature.storybook = true ∧
    constructsRequestQueue Feature.video = false ∧
    resolveQueueDelay none = 5000 := by
  decide

/-- C3: every submitted job's outcome future is settled exactly once — the
trace contains exactly one settlement event for its id — and the settlement
forwards the operation's own outcome unmodified: resolution with the result
value on success, rejection with exactly the thrown error on failure; the
queue never substitutes or wraps errors of its own. -/
theorem claim3_settled_exactly_once :
    ∀ (α ε : Type) (delayMs : Nat) (sched : List (List (QueueTask α ε)))
      (tasks : List (QueueTask α ε)) (t : QueueTask α ε),
      ((tasks ++ sched.flatten).map (fun x => x.id)).Nodup →
      t ∈ tasks ++ sched.flatten →
      settlesFor t.id (RequestQueue.runQueue delayMs sched tasks) =
          [RequestQueue.settleEvent t] ∧
        (∀ v, t.run = RunOutcome.ok v →
          RequestQueue.settleEvent t = QueueEvent.resolvedWith t.id v) ∧
        (∀ e, t.run = RunOutcome.thrown e →
          RequestQueue.settleEvent t = QueueEvent.rejectedWith t.id e) := by
  intro α ε delayMs sched tasks t hnd hm
  refine ⟨?_, ?_, ?_⟩
  · rw [settlesFor_runQueue, filter_id_of_nodup _ t hm hnd]
    rfl
  · intro v hv
    simp [RequestQueue.settleEvent, hv]
  · intro e he
    simp [RequestQueue.settleEvent, he]

/-- Witness for C3: two concrete jobs, the first resolving with 5. -/
theorem claim3_witness :
    settlesFor 1 (RequestQueue.runQueue (α := Nat) (ε := Nat) 0 []
        [⟨1, RunOutcome.ok 5, none, 0⟩, ⟨2, RunOutcome.thrown 9, none, 0⟩]) =
      [RequestQueue.settleEvent ⟨1, RunOutcome.ok 5, none, 0⟩] :=
  (claim3_settled_exactly_once Nat Nat 0 []
    [⟨1, RunOutcome.ok 5, none, 0⟩, ⟨2, RunOutcome.thrown 9, none, 0⟩]
    ⟨1, RunOutcome.ok 5, none, 0⟩ (by decide) (by decide)).1

/-- C4: a job whose operation throws settles only its own outcome future,
with exactly that error; the driver loop continues identically to the success
case — same starts, same notifications, same cool-downs, no backlog entry
discarded — as witnessed by the trace having the same shape as the trace of
the run in which the same job resolves successfully instead. -/
theorem claim4_error_isolated :
    ∀ (α ε : Type) (delayMs : Nat) (sched : List (List (QueueTask α ε)))
      (pre post : List (QueueTask α ε)) (t : QueueTask α ε) (e : ε) (v : α),
      t.run = RunOutcome.thrown e →
      (((pre ++ t :: post) ++ sched.flatten).map (fun x => x.id)).Nodup →
      settlesFor t.id
          (RequestQueue.runQueue delayMs sched (pre ++ t :: post)) =
          [QueueEvent.rejectedWith t.id e] ∧
        (RequestQueue.runQueue delayMs sched (pre ++ t :: post)).map shapeOf =
          (RequestQueue.runQueue delayMs sched
            (pre ++ ⟨t.id, RunOutcome.ok v, t.description, t.enqueuedAt⟩ ::
              post)).map shapeOf := by
  intro α ε delayMs sched pre post t e v ht hnd
  constructor
  · rw [settlesFor_runQueue,
      filter_id_of_nodup _ t (by simp) hnd]
    simp [RequestQueue.settleEvent, ht]
  · refine shape_runQueue_congr delayMs sched sched _ _ ?_ ?_
    · exact List.forall₂_same.mpr fun b _ =>
        List.forall₂_same.mpr fun x _ => (rfl : idEq x x)
    · refine List.rel_append
        (List.forall₂_same.mpr fun x _ => (rfl : idEq x x)) ?_
      exact List.Forall₂.cons
        (show idEq t ⟨t.id, RunOutcome.ok v, t.description, t.enqueuedAt⟩ from rfl)
        (List.forall₂_same.mpr fun x _ => (rfl : idEq x x))

/-- Witness for C4: job 1 throws 9, job 2 resolves; the trace shape matches
the all-success run and job 1 rejects with exactly 9. -/
theorem claim4_witness :
    settlesFor 1 (RequestQueue.runQueue (α := Nat) (ε := Nat) 0 []
        ([] ++ ⟨1, RunOutcome.thrown 9, none, 0⟩ ::
          [⟨2, RunOutcome.ok 6, none, 0⟩])) =
      [QueueEvent.rejectedWith 1 9] ∧
    (RequestQueue.runQueue (α := Nat) (ε := Nat) 0 []
        ([] ++ ⟨1, RunOutcome.thrown 9, none, 0⟩ ::
          [⟨2, RunOutcome.ok 6, none, 0⟩])).map shapeOf =
      (RequestQueue.runQueue (α := Nat) (ε := Nat) 0 []
        ([] ++ ⟨1, RunOutcome.ok 7, none, 0⟩ ::
          [⟨2, RunOutcome.ok 6, none, 0⟩])).map shapeOf :=
  claim4_error_isolated Nat Nat 0 [] [] [⟨2, RunOutcome.ok 6, none, 0⟩]
    ⟨1, RunOutcome.thrown 9, none, 0⟩ 9 7 rfl (by decide)

/-- C6: the cool-down is applied only between a job's completion and the next
job's start — every cool-down entry is preceded by some completion and
followed by some start — and only when the backlog is non-empty at that
moment and the configured delay is positive: a single submission incurs
exactly 0 cool-downs, a zero delay incurs none ever, and a backlog of N jobs
with positive delay incurs exactly N - 1, so no wait precedes the first job
and none lingers when nothing remains to run. -/
theorem claim6_cooldown_only_between :
    ∀ (α ε : Type) (delayMs : Nat),
      (∀ t : QueueTask α ε,
        cooldownsOf (RequestQueue.runQueue delayMs [] [t]) = []) ∧
      (∀ (sched : List (List (QueueTask α ε))) (tasks : List (QueueTask α ε)),
        cooldownsOf (RequestQueue.runQueue 0 sched tasks) = []) ∧
      (∀ tasks : List (QueueTask α ε), 0 < delayMs →
        (cooldownsOf (RequestQueue.runQueue delayMs [] tasks)).length =
          tasks.length - 1) ∧
      (∀ (sched : List (List (QueueTask α ε))) (tasks : List (QueueTask α ε)),
        cooldownAfterFinish false (RequestQueue.runQueue delayMs sched tasks)) ∧
      (∀ (sched : List (List (QueueTask α ε))) (tasks : List (QueueTask α ε)),
        cooldownBeforeStart (RequestQueue.runQueue delayMs sched tasks)) := by
  intro α ε delayMs
  refine ⟨?_, ?_, ?_, ?_, ?_⟩
  · intro t
    show cooldownsOf (RequestQueue.drain delayMs [t]) = []
    rw [RequestQueue.drain, RequestQueue.drain, List.append_nil,
      cooldownsOf_iterBlock]
    simp
  · exact fun sched tasks => cooldownsOf_runQueue_delay_zero sched tasks
  · intro tasks hd
    show (cooldownsOf (RequestQueue.drain delayMs tasks)).length = _
    rw [cooldownsOf_drain_length, if_pos hd]
  · exact fun sched tasks => cooldownAfterFinish_runQueue delayMs sched tasks false
  · exact fun sched tasks => cooldownBeforeStart_runQueue delayMs sched tasks

/-- Witness for C6: two jobs with delay 1000 incur exactly one cool-down. -/
theorem claim6_witness :
    (cooldownsOf (RequestQueue.runQueue (α := Nat) (ε := Nat) 1000 []
        [⟨1, RunOutcome.ok 5, none, 0⟩, ⟨2, RunOutcome.ok 6, none, 0⟩])).length =
      [⟨1, RunOutcome.ok 5, none, 0⟩,
        (⟨2, RunOutcome.ok 6, none, 0⟩ : QueueTask Nat Nat)].length - 1 :=
  (claim6_cooldown_only_between Nat Nat 1000).2.2.1
    [⟨1, RunOutcome.ok 5, none, 0⟩, ⟨2, RunOutcome.ok 6, none, 0⟩] (by decide)

/-- C10: every snapshot a run publishes has a remaining-delay field that is
either null or a number between 0 and the configured delay, and it is never
non-null while a job is active; and once the backlog empties the final
published snapshot is the cleared one — no active job, empty backlog, null
countdown. -/
theorem claim10_snapshot_invariant :
    ∀ (α ε : Type) (delayMs : Nat) (sched : List (List (QueueTask α ε)))
      (tasks : List (QueueTask α ε)),
      (∀ s ∈ snapsOf (RequestQueue.runQueue delayMs sched tasks),
        snapOk delayMs s) ∧
      (tasks ≠ [] →
        lastSnap (RequestQueue.runQueue delayMs sched tasks) =
          some ⟨none, [], none⟩) := by
  intro α ε delayMs sched tasks
  constructor
  · intro s hs
    exact mem_runQueue_snap delayMs sched tasks s ((mem_snapsOf s _).mp hs)
  · intro h
    exact lastSnap_runQueue delayMs sched tasks (Or.inl h)

/-- Witness for C10: a single job with delay 700; the final snapshot is the
cleared idle one. -/
theorem claim10_witness :
    lastSnap (RequestQueue.runQueue (α := Nat) (ε := Nat) 700 []
        [⟨1, RunOutcome.ok 5, none, 0⟩]) = some ⟨none, [], none⟩ :=
  (claim10_snapshot_invariant Nat Nat 700 [] [⟨1, RunOutcome.ok 5, none, 0⟩]).2
    (by decide)

/-- Counterexample to C5: with an observer that throws registered before a
well-behaved observer, a single notification from the driver loop delivers
only to the throwing observer, the error propagates out of the loop
(`errorOut = some 7`), the dequeued job is never run or settled, the second
observer is never invoked, and the remaining backlog is left unprocessed —
`notify` (source lines 80-83) has no exception handling. -/
theorem claim5_counterexample :
    (RequestQueue.processLoop (α := Nat) (ε := Nat) [⟨0, some 7⟩, ⟨1, none⟩]
        [⟨1, RunOutcome.ok 5, none, 0⟩, ⟨2, RunOutcome.ok 6, none, 0⟩]).errorOut =
      some 7 ∧
    (RequestQueue.processLoop (α := Nat) (ε := Nat) [⟨0, some 7⟩, ⟨1, none⟩]
        [⟨1, RunOutcome.ok 5, none, 0⟩, ⟨2, RunOutcome.ok 6, none, 0⟩]).settledEvents =
      [] ∧
    (RequestQueue.processLoop (α := Nat) (ε := Nat) [⟨0, some 7⟩, ⟨1, none⟩]
        [⟨1, RunOutcome.ok 5, none, 0⟩, ⟨2, RunOutcome.ok 6, none, 0⟩]).leftover =
      [⟨2, RunOutcome.ok 6, none, 0⟩] ∧
    (RequestQueue.processLoop (α := Nat) (ε := Nat) [⟨0, some 7⟩, ⟨1, none⟩]
        [⟨1, RunOutcome.ok 5, none, 0⟩, ⟨2, RunOutcome.ok 6, none, 0⟩]).deliveries =
      [(0, ⟨some 1, [2], none⟩)] := by
  decide

/-- C5 as amended: an error thrown by an observer callback is not isolated —
the first throwing observer receives the snapshot, every observer registered
after it is skipped, and the error propagates to the caller of `notify`
(aborting the driver loop iteration); only when no registered observer
throws does notification reach everybody and the loop settle every job and
drain the backlog. -/
theorem claim5_observer_errors_propagate :
    (∀ (ε : Type) (ls1 : List (Listener ε)) (l : Listener ε)
        (ls2 : List (Listener ε)) (s : QueueSnapshot) (e : ε),
      l.throws = some e → (∀ x ∈ ls1, x.throws = none) →
      RequestQueue.notify (ls1 ++ l :: ls2) s =
        (ls1.map (fun x => (x.id, s)) ++ [(l.id, s)], some e)) ∧
    (∀ (α ε : Type) (ls : List (Listener ε)) (tasks : List (QueueTask α ε)),
      (∀ x ∈ ls, x.throws = none) →
      (RequestQueue.processLoop ls tasks).errorOut = none ∧
      (RequestQueue.processLoop ls tasks).settledEvents =
        tasks.map RequestQueue.settleEvent ∧
      (RequestQueue.processLoop ls tasks).leftover = []) := by
  constructor
  · intro ε ls1 l ls2 s e hl h1
    exact notify_throw_split ls1 l ls2 s e hl h1
  · intro α ε ls tasks h
    have hh := processLoop_benign ls h tasks
    exact ⟨hh.1, hh.2.1, hh.2.2.1⟩

/-- Witness for C5 as amended, at a throwing observer followed by a
well-behaved one. -/
theorem claim5_witness :
    RequestQueue.notify (ε := Nat) ([] ++ ⟨0, some 7⟩ :: [⟨1, none⟩])
      ⟨none, [], none⟩ = ([(0, ⟨none, [], none⟩)], some 7) :=
  claim5_observer_errors_propagate.1 Nat [] ⟨0, some 7⟩ [⟨1, none⟩]
    ⟨none, [], none⟩ 7 rfl (by simp)

/-- Counterexample to C7: a cool-down wait of 500ms has positive duration,
yet the recurring 500ms interval is not started (source line 142 guards it
with `ms >= 1000`) and the wait publishes no tick notification at all — only
the initial full-duration snapshot and the final clearing snapshot. -/
theorem claim7_counterexample :
    0 < 500 ∧
    RequestQueue.intervalStarted 500 = false ∧
    RequestQueue.waitWithCountdown (α := Nat) (ε := Nat) 500 [] [] =
      [QueueEvent.snap ⟨none, [], some 500⟩, QueueEvent.snap ⟨none, [], none⟩] := by
  decide

/-- C7 as amended: every cool-down wait first sets the remaining time to the
full duration and notifies; the recurring 500ms tick is started if and only
if the duration is at least 1000ms, in which case the tick sequence
recomputes the remaining time from elapsed wall-clock time (remaining
ms - 500(k+1) at the k-th tick); for positive durations under 1000ms the
wait consists only of the initial notification, any arrival notifications,
and the single delayed clearing completion at the full duration, whose
clearing snapshot is always the last one published. -/
theorem claim7_countdown_guarded_ticks :
    ∀ (α ε : Type) (ms : Nat) (queued : List Nat) (b : List (QueueTask α ε)),
      (RequestQueue.waitWithCountdown (α := α) (ε := ε) ms queued b).head? =
        some (QueueEvent.snap ⟨none, queued, some ms⟩) ∧
      (RequestQueue.intervalStarted ms = true ↔ 1000 ≤ ms) ∧
      RequestQueue.tickRems ms =
        (List.range (ms / 500)).map (fun k => ms - 500 * (k + 1)) ∧
      (¬ 1000 ≤ ms →
        RequestQueue.waitWithCountdown (α := α) (ε := ε) ms queued b =
          QueueEvent.snap ⟨none, queued, some ms⟩ ::
            (RequestQueue.enqueueEvents none queued (some ms) b ++
              RequestQueue.clearCountdownEvents (some ms)
                (queued ++ b.map (fun t => t.id)))) ∧
      lastSnap (RequestQueue.waitWithCountdown (α := α) (ε := ε) ms queued b) =
        some ⟨none, queued ++ b.map (fun t => t.id), none⟩ := by
  intro α ε ms queued b
  refine ⟨rfl, ?_, tickRems_eq_range ms, ?_, lastSnap_waitWithCountdown ms queued b⟩
  · unfold RequestQueue.intervalStarted
    exact decide_eq_true_iff
  · intro h
    have hiv : RequestQueue.intervalStarted ms = false := by
      unfold RequestQueue.intervalStarted
      exact decide_eq_false h
    unfold RequestQueue.waitWithCountdown
    rw [hiv]
    simp

/-- Witness for C7 as amended: a 700ms wait has no ticks. -/
theorem claim7_witness :
    RequestQueue.waitWithCountdown (α := Nat) (ε := Nat) 700 [] [] =
      QueueEvent.snap ⟨none, [], some 700⟩ ::
        (RequestQueue.enqueueEvents none [] (some 700) [] ++
          RequestQueue.clearCountdownEvents (some 700)
            ([] ++ List.map (fun t => t.id) ([] : List (QueueTask Nat Nat)))) :=
  (claim7_countdown_guarded_ticks Nat Nat 700 [] []).2.2.2.1 (by decide)

/-- C8: subscribing invokes the observer immediately, exactly once, with the
queue's current snapshot; the returned deregistration is idempotent (safe to
call multiple times); after deregistration the observer receives no further
notifications; and while registered (and as long as no observer throws) the
observer receives every subsequent broadcast. -/
theorem claim8_subscribe_contract :
    ∀ (ε : Type),
      (∀ (ls : List (Listener ε)) (l : Listener ε) (s : QueueSnapshot),
        (RequestQueue.subscribe ls l s).2 = [(l.id, s)]) ∧
      (∀ (ls : List (Listener ε)) (i : Nat),
        RequestQueue.unsubscribe (RequestQueue.unsubscribe ls i) i =
          RequestQueue.unsubscribe ls i) ∧
      (∀ (ls : List (Listener ε)) (i : Nat) (s : QueueSnapshot),
        ∀ d ∈ (RequestQueue.notify (RequestQueue.unsubscribe ls i) s).1,
          d.1 ≠ i) ∧
      (∀ (ls : List (Listener ε)) (l : Listener ε) (s2 : QueueSnapshot),
        (∀ x ∈ ls, x.throws = none) → l.throws = none →
        (l.id, s2) ∈
          (RequestQueue.notify (RequestQueue.subscribe ls l s2).1 s2).1) := by
  intro ε
  refine ⟨fun ls l s => rfl, ?_, ?_, ?_⟩
  · intro ls i
    unfold RequestQueue.unsubscribe
    rw [List.filter_filter]
    simp
  · intro ls i s
    exact notify_avoids_absent _ i s (unsubscribe_no_member ls i)
  · intro ls l s2 hb hl
    have hall : ∀ x ∈ RequestQueue.addListener ls l, x.throws = none := by
      intro x hx
      unfold RequestQueue.addListener at hx
      by_cases hp : ls.any (fun y => y.id == l.id)
      · rw [if_pos hp] at hx
        exact hb x hx
      · rw [if_neg hp] at hx
        rcases List.mem_append.mp hx with hx | hx
        · exact hb x hx
        · rcases List.mem_singleton.mp hx with rfl
          exact hl
    show (l.id, s2) ∈ (RequestQueue.notify (RequestQueue.addListener ls l) s2).1
    rw [notify_benign _ _ hall]
    unfold RequestQueue.addListener
    by_cases hp : ls.any (fun y => y.id == l.id)
    · rw [if_pos hp]
      obtain ⟨x, hx, hxid⟩ := List.any_eq_true.mp hp
      rw [beq_iff_eq] at hxid
      exact List.mem_map.mpr ⟨x, hx, by rw [hxid]⟩
    · rw [if_neg hp]
      refine List.mem_map.mpr ⟨l, ?_, rfl⟩
      exact List.mem_append_right _ (List.mem_singleton.mpr rfl)

/-- Witness for C8: a fresh observer subscribed to an empty listener set is
notified on the next broadcast. -/
theorem claim8_witness :
    ((3 : Nat), (⟨none, [], none⟩ : QueueSnapshot)) ∈
      (RequestQueue.notify (ε := Nat)
        (RequestQueue.subscribe [] ⟨3, none⟩ ⟨none, [], none⟩).1
        ⟨none, [], none⟩).1 :=
  (claim8_subscribe_contract Nat).2.2.2 [] ⟨3, none⟩ ⟨none, [], none⟩
    (by simp) rfl
